import Mathlib

/-!
Verification of `src/Depfile.cpp` (dependency-file tokenizer, filename
escaper and source-path rewriter) against its natural-language
specification.  The C++ functions are shallowly embedded over `List Char`:
`tokenize` is a `while` loop over an index `p` that only moves forward, so
it is modelled as a step function `tokStep` on the remaining input plus a
fuel-indexed iterator `tokLoop` (the loop is *not* total, see the theorems
about inputs that start a separator colon with a blank token, so fuel is
required for faithfulness).
-/

namespace Depfile

/-- C `isspace` in the default locale: space (32) and the characters 9..13
(tab, newline, vertical tab, form feed, carriage return). -/
def isspace (c : Char) : Bool :=
  c == ' ' || c == '\t' || c == '\n' || c == Char.ofNat 11 || c == Char.ofNat 12
    || c == '\r'

/-- `is_blank` from `Depfile.cpp`: every character of the string satisfies
`isspace` (true for the empty string, as `std::all_of` on an empty range). -/
def is_blank (s : List Char) : Bool :=
  s.all isspace

/-- The inner quote-scanning `while` loop of `Depfile::tokenize`
(lines 260-270): consume characters into the token until the closing
double quote, which is consumed but not kept; an unterminated quote
consumes to end of input. -/
def quoteScan : List Char → List Char → List Char × List Char
  | [], token => (token, [])
  | c :: rest, token =>
      if c == '\"' then (token, rest) else quoteScan rest (token ++ [c])

/-- Result of one iteration of the `while (p < length)` loop of
`Depfile::tokenize`: either the loop has exited and the final flush ran
(`done`), or the loop continues with a new remaining input, current token
and result vector (`next`). -/
inductive TokStepRes where
  | done (result : List (List Char)) : TokStepRes
  | next (rest token : List Char) (result : List (List Char)) : TokStepRes
  deriving DecidableEq

/-- One iteration of the loop body of `Depfile::tokenize` (lines 179-276),
plus the final flush (lines 278-280) when the input is exhausted.  The
remaining input plays the role of `file_content.substr(p)`; one character
of lookahead (`file_content[p + 1]`) is the head of the tail. -/
def tokStep : List Char → List Char → List (List Char) → TokStepRes
  | [], token, result =>
      .done (if is_blank token then result else result ++ [token])
  | c :: rest, token, result =>
      if c == ':' && !rest.isEmpty && !is_blank token && token.length == 1
          && (rest.head? == some '/' || rest.head? == some '\\') then
        -- Windows drive letter: the colon is not a separator (lines 182-193).
        .next rest (token ++ [c]) result
      else if isspace c || c == ':' then
        -- Separator handling (lines 195-219); the space chomp starts at the
        -- current character.
        if is_blank token then
          .next ((c :: rest).dropWhile isspace) [] result
        else
          match (c :: rest).dropWhile isspace with
          | ':' :: rest2 =>
              .next (rest2.dropWhile isspace) [] (result ++ [token ++ [':']])
          | r1 => .next r1 [] (result ++ [token])
      else if c == '\\' then
        match rest with
        | next1 :: rest2 =>
            if next1 == '\\' || next1 == '#' || next1 == ':' || next1 == ' '
                || next1 == '\t' then
              .next rest2 (token ++ [next1]) result
            else if next1 == '\n' then
              -- Discard the backslash only; the newline is reprocessed.
              .next rest token result
            else
              .next rest (token ++ [c]) result
        | [] => .next rest (token ++ [c]) result
      else if c == '$' then
        match rest with
        | '$' :: rest2 => .next rest2 (token ++ ['$']) result
        | _ => .next rest (token ++ ['$']) result
      else if c == '\"' then
        .next (quoteScan rest token).2 (quoteScan rest token).1 result
      else
        .next rest (token ++ [c]) result

/-- Fuel-indexed iteration of `tokStep`; `none` means the fuel ran out
before the loop exited. -/
def tokLoop : Nat → List Char → List Char → List (List Char) →
    Option (List (List Char))
  | 0, _, _, _ => none
  | fuel + 1, rest, token, result =>
      match tokStep rest token result with
      | .done r => some r
      | .next rest1 token1 result1 => tokLoop fuel rest1 token1 result1

/-- `Depfile::tokenize`.  Every iteration of the C++ loop that makes
progress consumes at least one input character, so `length + 1` fuel
returns `some` exactly when the C++ loop terminates. -/
def tokenize (file_content : List Char) : Option (List (List Char)) :=
  tokLoop (file_content.length + 1) file_content [] []

/-- The loop body of `Depfile::escape_filename` (lines 45-59): each escaped
character is preceded by a backslash (or an extra dollar sign) and then the
character itself is appended. -/
def escapeLoop (result : List Char) : List Char → List Char
  | [] => result
  | c :: rest =>
      escapeLoop
        (result ++
          (if c == '\\' || c == '#' || c == ':' || c == ' ' || c == '\t' then
            ['\\']
          else if c == '$' then ['$']
          else []) ++ [c]) rest

/-- `Depfile::escape_filename`. -/
def escape_filename (filename : List Char) : List Char :=
  escapeLoop [] filename

/-- `std::string_view::find(needle) != npos`: the needle occurs as a
contiguous substring of the haystack (an empty needle is always found). -/
def containsSub (needle : List Char) : List Char → Bool
  | [] => needle.isEmpty
  | c :: rest => needle.isPrefixOf (c :: rest) || containsSub needle rest

/-- Modelled from the spec: `util::Tokenizer(content, "\n", include_empty,
IncludeDelimiter::yes)` is not under `src/`; per the spec a Line is "a
maximal run of characters bounded by newline characters (newline included
at the end, if present, to support reconstruction)".  A trailing empty
token would contribute no chunks, so it is omitted. -/
def splitLinesAux (acc : List Char) : List Char → List (List Char)
  | [] => if acc.isEmpty then [] else [acc]
  | c :: rest =>
      if c == '\n' then (acc ++ ['\n']) :: splitLinesAux [] rest
      else splitLinesAux (acc ++ [c]) rest

/-- Split file content into lines, each line keeping its trailing newline. -/
def splitLines (s : List Char) : List (List Char) :=
  splitLinesAux [] s

/-- Modelled from the spec: `Util::split_into_views(line, " \t")` is not
under `src/`; per the spec the line is split "into raw substrings using
single-character whitespace boundaries" with the separator set `" \t"`
taken from the call site in `src/Depfile.cpp`; empty chunks are skipped
(`DEBUG_ASSERT(!tokens[i].empty())`). -/
def splitChunksAux (acc : List Char) : List Char → List (List Char)
  | [] => if acc.isEmpty then [] else [acc]
  | c :: rest =>
      if c == ' ' || c == '\t' then
        if acc.isEmpty then splitChunksAux [] rest
        else acc :: splitChunksAux [] rest
      else splitChunksAux (acc ++ [c]) rest

/-- Split one line into its space/tab-delimited chunks. -/
def splitChunks (line : List Char) : List (List Char) :=
  splitChunksAux [] line

/-- Modelled from the spec: `util::is_absolute_path` is not under `src/`;
per the spec a chunk "read as a literal path string" is absolute when it
begins with a path separator (POSIX form). -/
def is_absolute_path (p : List Char) : Bool :=
  p.head? == some '/'

/-- The token ends with a colon (`tokens[i].back() == ':'`), marking a
target terminator. -/
def endsColon (t : List Char) : Bool :=
  t.getLast? == some ':'

/-- `line[0] == ' ' || line[0] == '\t'` from line 89 of the source. -/
def lineHeadBlank (line : List Char) : Bool :=
  line.head? == some ' ' || line.head? == some '\t'

/-- The call-scoped state of `Depfile::rewrite_source_paths`: the
accumulated output (`adjusted_file_content`), the `content_rewritten` and
`seen_target_token` flags, plus `calls`, a ghost log of the tokens passed
to the external relativization collaborator `Util::make_relative_path`.
The ghost log never influences the other three fields. -/
structure RwState where
  out : List Char
  changed : Bool
  seenTarget : Bool
  calls : List (List Char)
  deriving DecidableEq

/-- The inner loop body of `Depfile::rewrite_source_paths` (lines 85-111)
for chunk number `i` of a line: optionally emit a single separating space,
then either the relativized replacement (when past the target token, the
chunk is absolute and the collaborator `rel` returns something different)
or the chunk itself, and finally record whether the chunk ends in `:`. -/
def rwToken (rel : List Char → List Char) (line : List Char) (i : Nat)
    (st : RwState) (token : List Char) : RwState :=
  let out0 := if !(i == 0) || lineHeadBlank line then st.out ++ [' '] else st.out
  if st.seenTarget && is_absolute_path token then
    let new_path := rel token
    if new_path != token then
      { out := out0 ++ new_path, changed := true,
        seenTarget := st.seenTarget || endsColon token,
        calls := st.calls ++ [token] }
    else
      { out := out0 ++ token, changed := st.changed,
        seenTarget := st.seenTarget || endsColon token,
        calls := st.calls ++ [token] }
  else
    { out := out0 ++ token, changed := st.changed,
      seenTarget := st.seenTarget || endsColon token,
      calls := st.calls }

/-- Iterate `rwToken` over the chunks of one line. -/
def rwLine (rel : List Char → List Char) (line : List Char) :
    List (List Char) → Nat → RwState → RwState
  | [], _, st => st
  | t :: ts, i, st => rwLine rel line ts (i + 1) (rwToken rel line i st t)

/-- Iterate over the lines of the content (the state, in particular
`seen_target_token`, persists across lines). -/
def rwLines (rel : List Char → List Char) : List (List Char) → RwState → RwState
  | [], st => st
  | l :: ls, st => rwLines rel ls (rwLine rel l (splitChunks l) 0 st)

/-- `Depfile::rewrite_source_paths`, parametrized by the configured base
directory and by the external path-relativization collaborator `rel`
(`Util::make_relative_path`).  The `ASSERT(!base_dir.empty())` is a caller
precondition and is not modelled.  Returns `none` ("no rewrite occurred")
on the fast path and when no chunk was replaced. -/
def rewrite_source_paths (base_dir : List Char) (rel : List Char → List Char)
    (file_content : List Char) : Option (List Char) :=
  if containsSub base_dir file_content then
    let st := rwLines rel (splitLines file_content)
      { out := [], changed := false, seenTarget := false, calls := [] }
    if st.changed then some st.out else none
  else none

/-- The ghost log of `rewrite_source_paths`: the list of chunks passed to
the relativization collaborator, in call order. -/
def rwCalls (base_dir : List Char) (rel : List Char → List Char)
    (file_content : List Char) : List (List Char) :=
  if containsSub base_dir file_content then
    (rwLines rel (splitLines file_content)
      { out := [], changed := false, seenTarget := false, calls := [] }).calls
  else []

/-- The chunks of the content in scan order, across lines. -/
def allChunks (file_content : List Char) : List (List Char) :=
  (splitLines file_content).flatMap splitChunks

/-- The expected arguments of the relativization collaborator: a chunk is a
rewrite candidate exactly when some strictly earlier chunk (on any earlier
line or the same line) ended with a colon and the chunk itself is an
absolute path. -/
def prereqCandidates : List (List Char) → Bool → List (List Char)
  | [], _ => []
  | t :: ts, seen =>
      (if seen && is_absolute_path t then [t] else []) ++
        prereqCandidates ts (seen || endsColon t)

/-- Follows the spec's words (§4.1): each occurrence of `\`, `#`, `:`,
space, or tab is preceded by a literal `\`, each `$` is preceded by another
`$`, and all other characters pass through unchanged. -/
def escapeSpecChar (c : Char) : List Char :=
  if c == '\\' || c == '#' || c == ':' || c == ' ' || c == '\t' then ['\\', c]
  else if c == '$' then ['$', c]
  else [c]

/-- Follows the amended spec's words: the chunk emitted in place of a
scanned chunk — its relativized form when the target terminator has been
seen, the chunk is absolute and the collaborator's answer differs,
otherwise the chunk itself; the target-terminator flag is threaded through
the chunk sequence. -/
def specTokens (rel : List Char → List Char) :
    Bool → List (List Char) → List (List Char)
  | _, [] => []
  | seen, t :: ts =>
      (if seen && is_absolute_path t && (rel t != t) then rel t else t) ::
        specTokens rel (seen || endsColon t) ts

/-- Follows the amended spec's words for one line: the emitted chunks are
joined by single spaces, preceded by exactly one space when the original
line began with a space or tab; a line without chunks contributes
nothing. -/
def specLineText (rel : List Char → List Char) (seen : Bool)
    (line : List Char) : List Char :=
  match specTokens rel seen (splitChunks line) with
  | [] => []
  | t :: ts =>
      (if lineHeadBlank line then [' '] else []) ++ t ++
        ts.flatMap (fun u => ' ' :: u)

/-- Follows the amended spec's words: the rewritten text is the
concatenation of the per-line reconstructions, with the target-terminator
flag persisting across lines. -/
def specText (rel : List Char → List Char) : Bool → List (List Char) → List Char
  | _, [] => []
  | seen, l :: ls =>
      specLineText rel seen l ++
        specText rel (seen || (splitChunks l).any endsColon) ls

/-- The full spec-side reconstruction of the rewritten content. -/
def rewriteSpecText (rel : List Char → List Char) (content : List Char) :
    List Char :=
  specText rel false (splitLines content)

/-- A character that survives escaping/decoding intact: not a quote and not
one of the whitespace characters that `escape_filename` leaves unescaped
(newline, vertical tab, form feed, carriage return). -/
def goodChar (c : Char) : Bool :=
  !(c == '\"') && !(c == '\n') && !(c == Char.ofNat 11) && !(c == Char.ofNat 12)
    && !(c == '\r')

/-- A token with no whitespace characters. -/
def noWS (t : List Char) : Bool :=
  t.all (fun c => !isspace c)

/-- Every colon in the token other than the final character is immediately
followed by a forward slash (the Windows drive-letter pattern). -/
def colonOK : List Char → Bool
  | c :: d :: rest => (!(c == ':') || d == '/') && colonOK (d :: rest)
  | _ => true

/-- Input text containing no backslash and no double quote, so that no
character of it is escaped or quoted. -/
def clean (s : List Char) : Bool :=
  s.all fun c => !(c == '\\') && !(c == '\"')

lemma isspace_colon : isspace ':' = false := by decide

/-- When the loop head is a separator colon and the current token is blank,
the loop body neither consumes input nor changes state, so the loop never
terminates whatever the fuel. -/
lemma tokLoop_stuck_colon :
    ∀ (fuel : Nat) (r : List Char) (res : List (List Char)),
      tokLoop fuel (':' :: r) [] res = none := by
  intro fuel
  induction fuel with
  | zero => intro r res; rfl
  | succ n ih =>
      intro r res
      have hstep : tokStep (':' :: r) [] res = .next (':' :: r) [] res := by
        simp [tokStep, is_blank, isspace_colon]
      simp [tokLoop, hstep, ih]

/-- Claim C1: refuted on the code.  The spec says the tokenizer is total,
but on the input consisting of a single colon the loop of
`Depfile::tokenize` never consumes the colon (the current token is blank),
so the loop runs forever: the fuel-indexed embedding returns `none` for
every fuel, from every intermediate result state. -/
theorem tokenize_not_total_on_colon :
    tokenize [':'] = none ∧
      ∀ (fuel : Nat) (res : List (List Char)),
        tokLoop fuel [':'] [] res = none := by
  exact ⟨tokLoop_stuck_colon 2 [] [], fun fuel res => tokLoop_stuck_colon fuel [] res⟩

/-- Claim C2: refuted on the code.  On `"cat : : dep"` the spec expects the
token list `["cat:", "dep"]`, but after the first colon is glued onto
`"cat"` the loop reaches the second colon with a blank token and never
consumes it: the tokenizer diverges for every fuel. -/
theorem tokenize_double_colon_diverges :
    tokenize ['c', 'a', 't', ' ', ':', ' ', ':', ' ', 'd', 'e', 'p'] = none ∧
      ∀ (fuel : Nat),
        tokLoop fuel ['c', 'a', 't', ' ', ':', ' ', ':', ' ', 'd', 'e', 'p']
          [] [] = none := by
  have h : ∀ (fuel : Nat),
      tokLoop fuel ['c', 'a', 't', ' ', ':', ' ', ':', ' ', 'd', 'e', 'p']
        [] [] = none := by
    intro fuel
    rcases fuel with _ | _ | _ | _ | n
    · rfl
    · rfl
    · rfl
    · rfl
    · have hred :
          tokLoop (n + 4) ['c', 'a', 't', ' ', ':', ' ', ':', ' ', 'd', 'e', 'p']
            [] [] =
          tokLoop n [':', ' ', 'd', 'e', 'p'] [] [['c', 'a', 't', ':']] := rfl
      rw [hred]
      exact tokLoop_stuck_colon n _ _
  exact ⟨h 12, h⟩

/-- Claim C3, counterexample: by the claim `tokenize("cat:/meow")` should
be `["cat", "/meow"]`, but the code glues the separator colon onto the
multi-character token. -/
theorem tokenize_cat_drive_counterexample :
    tokenize ['c', 'a', 't', ':', '/', 'm', 'e', 'o', 'w'] ≠
      some [['c', 'a', 't'], ['/', 'm', 'e', 'o', 'w']] := by decide

/-- Claim C3, amended: `tokenize("c:/meow")` is the single token
`["c:/meow"]` (a colon after a one-character non-blank token followed by a
slash is a literal drive-letter colon), while `tokenize("cat:/meow")` is
`["cat:", "/meow"]` — after a multi-character token the colon acts as a
separator and is appended to the flushed token as its target marker. -/
theorem tokenize_drive_letter_amended :
    tokenize ['c', ':', '/', 'm', 'e', 'o', 'w'] =
        some [['c', ':', '/', 'm', 'e', 'o', 'w']] ∧
      tokenize ['c', 'a', 't', ':', '/', 'm', 'e', 'o', 'w'] =
        some [['c', 'a', 't', ':'], ['/', 'm', 'e', 'o', 'w']] := by decide

lemma escapeSpecChar_eq (c : Char) :
    escapeSpecChar c =
      (if c == '\\' || c == '#' || c == ':' || c == ' ' || c == '\t' then ['\\']
       else if c == '$' then ['$']
       else []) ++ [c] := by
  by_cases h1 : (c == '\\' || c == '#' || c == ':' || c == ' ' || c == '\t') = true
  · simp [escapeSpecChar, h1]
  · by_cases h2 : (c == '$') = true
    · simp [escapeSpecChar, h1, h2]
    · simp [escapeSpecChar, h1, h2]

lemma escapeLoop_eq (f : List Char) :
    ∀ (acc : List Char), escapeLoop acc f = acc ++ f.flatMap escapeSpecChar := by
  induction f with
  | nil => intro acc; simp [escapeLoop]
  | cons c rest ih =>
      intro acc
      rw [escapeLoop, ih, List.flatMap_cons, escapeSpecChar_eq]
      simp

/-- Claim C10: `escape_filename` is total (a Lean function over all
`List Char` inputs), maps the empty filename to the empty output, and its
output is exactly the concatenation, in input order, of the per-character
spec mapping: `\`, `#`, `:`, space and tab get a preceding `\`, `$` gets a
preceding `$`, everything else passes through unchanged. -/
theorem escape_filename_spec :
    escape_filename [] = [] ∧
      ∀ (f : List Char), escape_filename f = f.flatMap escapeSpecChar := by
  constructor
  · rfl
  · intro f
    exact escapeLoop_eq f []

lemma rwToken_seen (rel : List Char → List Char) (line : List Char) (i : Nat)
    (st : RwState) (t : List Char) :
    (rwToken rel line i st t).seenTarget = (st.seenTarget || endsColon t) := by
  unfold rwToken
  by_cases h1 : (st.seenTarget && is_absolute_path t) = true
  · by_cases h2 : (rel t != t) = true <;> simp [h1, h2]
  · simp [h1]

lemma rwToken_calls (rel : List Char → List Char) (line : List Char) (i : Nat)
    (st : RwState) (t : List Char) :
    (rwToken rel line i st t).calls =
      st.calls ++ (if st.seenTarget && is_absolute_path t then [t] else []) := by
  unfold rwToken
  by_cases h1 : (st.seenTarget && is_absolute_path t) = true
  · by_cases h2 : (rel t != t) = true <;> simp [h1, h2]
  · simp [h1]

lemma rwToken_changed (rel : List Char → List Char) (line : List Char) (i : Nat)
    (st : RwState) (t : List Char) :
    (rwToken rel line i st t).changed =
      (st.changed || (st.seenTarget && is_absolute_path t && (rel t != t))) := by
  unfold rwToken
  by_cases h1 : (st.seenTarget && is_absolute_path t) = true
  · by_cases h2 : (rel t != t) = true <;> simp [h1, h2]
  · simp [h1]

lemma rwToken_out (rel : List Char → List Char) (line : List Char) (i : Nat)
    (st : RwState) (t : List Char) :
    (rwToken rel line i st t).out =
      (if !(i == 0) || lineHeadBlank line then st.out ++ [' '] else st.out) ++
        (if st.seenTarget && is_absolute_path t && (rel t != t) then rel t
         else t) := by
  unfold rwToken
  by_cases h1 : (st.seenTarget && is_absolute_path t) = true
  · by_cases h2 : (rel t != t) = true <;> simp [h1, h2]
  · simp [h1]

lemma rwLine_spec (rel : List Char → List Char) (line : List Char) :
    ∀ (ts : List (List Char)) (i : Nat) (st : RwState),
      (rwLine rel line ts i st).seenTarget
          = (st.seenTarget || ts.any endsColon) ∧
        (rwLine rel line ts i st).calls
          = st.calls ++ prereqCandidates ts st.seenTarget ∧
        (rwLine rel line ts i st).changed
          = (st.changed ||
              (prereqCandidates ts st.seenTarget).any (fun t => rel t != t)) ∧
        (¬ i = 0 → (rwLine rel line ts i st).out
          = st.out ++
              (specTokens rel st.seenTarget ts).flatMap (fun u => ' ' :: u)) := by
  intro ts
  induction ts with
  | nil => intro i st; simp [rwLine, prereqCandidates, specTokens]
  | cons t ts ih =>
      intro i st
      obtain ⟨h1, h2, h3, h4⟩ := ih (i + 1) (rwToken rel line i st t)
      refine ⟨?_, ?_, ?_, ?_⟩
      · rw [rwLine, h1, rwToken_seen]
        simp [List.any_cons, Bool.or_assoc]
      · rw [rwLine, h2, rwToken_calls, rwToken_seen, prereqCandidates]
        simp [List.append_assoc]
      · rw [rwLine, h3, rwToken_changed, rwToken_seen, prereqCandidates]
        by_cases hs : (st.seenTarget && is_absolute_path t) = true
        · simp [hs, List.any_append, Bool.or_assoc]
        · simp [hs, List.any_append, Bool.or_assoc]
      · intro hi
        have hi' : (i == 0) = false := by
          simp [hi]
        rw [rwLine, h4 (by omega), rwToken_out, rwToken_seen, specTokens]
        simp [hi', List.flatMap_cons, List.append_assoc]

lemma rwLine_out0 (rel : List Char → List Char) (line : List Char)
    (st : RwState) :
    (rwLine rel line (splitChunks line) 0 st).out =
      st.out ++ specLineText rel st.seenTarget line := by
  rcases hc : splitChunks line with _ | ⟨t, ts⟩
  · simp [rwLine, specLineText, hc, specTokens]
  · have h4 := (rwLine_spec rel line ts 1 (rwToken rel line 0 st t)).2.2.2
    rw [rwLine, h4 (by omega), rwToken_out, rwToken_seen, specLineText, hc,
      specTokens]
    by_cases hb : lineHeadBlank line = true <;>
      simp [hb, List.flatMap_cons, List.append_assoc]

lemma prereqCandidates_append :
    ∀ (a b : List (List Char)) (seen : Bool),
      prereqCandidates (a ++ b) seen =
        prereqCandidates a seen ++ prereqCandidates b (seen || a.any endsColon) := by
  intro a
  induction a with
  | nil => intro b seen; simp [prereqCandidates]
  | cons t a ih =>
      intro b seen
      simp only [List.cons_append, prereqCandidates, List.any_cons,
        List.append_eq]
      rw [ih]
      simp [Bool.or_assoc, List.append_assoc]

lemma rwLines_spec (rel : List Char → List Char) :
    ∀ (ls : List (List Char)) (st : RwState),
      (rwLines rel ls st).seenTarget
          = (st.seenTarget || (ls.flatMap splitChunks).any endsColon) ∧
        (rwLines rel ls st).calls
          = st.calls ++ prereqCandidates (ls.flatMap splitChunks) st.seenTarget ∧
        (rwLines rel ls st).changed
          = (st.changed ||
              (prereqCandidates (ls.flatMap splitChunks) st.seenTarget).any
                (fun t => rel t != t)) ∧
        (rwLines rel ls st).out = st.out ++ specText rel st.seenTarget ls := by
  intro ls
  induction ls with
  | nil => intro st; simp [rwLines, specText, prereqCandidates]
  | cons l ls ih =>
      intro st
      obtain ⟨g1, g2, g3, g4⟩ :=
        rwLine_spec rel l (splitChunks l) 0 st
      obtain ⟨h1, h2, h3, h4⟩ := ih (rwLine rel l (splitChunks l) 0 st)
      refine ⟨?_, ?_, ?_, ?_⟩
      · rw [rwLines, h1, g1]
        simp [List.any_append, Bool.or_assoc]
      · rw [rwLines, h2, g2, g1, List.flatMap_cons, prereqCandidates_append]
        simp [List.append_assoc]
      · rw [rwLines, h3, g3, g1, List.flatMap_cons, prereqCandidates_append]
        simp [List.any_append, Bool.or_assoc]
      · rw [rwLines, h4, rwLine_out0, g1, specText]
        simp [List.append_assoc]

/-- Bridge: past the fast path, `rewrite_source_paths` returns the
spec-side reconstruction exactly when some candidate chunk is changed by
the collaborator, and `none` otherwise. -/
lemma rewrite_source_paths_eq (base_dir : List Char)
    (rel : List Char → List Char) (content : List Char)
    (h : containsSub base_dir content = true) :
    rewrite_source_paths base_dir rel content =
      (if (prereqCandidates (allChunks content) false).any (fun t => rel t != t)
       then some (rewriteSpecText rel content)
       else none) := by
  obtain ⟨_, _, h3, h4⟩ :=
    rwLines_spec rel (splitLines content)
      { out := [], changed := false, seenTarget := false, calls := [] }
  unfold rewrite_source_paths
  rw [if_pos h]
  simp only [h3, h4, Bool.false_or, List.nil_append, allChunks, rewriteSpecText]

lemma rwCalls_eq (base_dir : List Char) (rel : List Char → List Char)
    (content : List Char) (h : containsSub base_dir content = true) :
    rwCalls base_dir rel content = prereqCandidates (allChunks content) false := by
  obtain ⟨_, h2, _, _⟩ :=
    rwLines_spec rel (splitLines content)
      { out := [], changed := false, seenTarget := false, calls := [] }
  unfold rwCalls
  rw [if_pos h]
  simp only [h2, List.nil_append, allChunks]

lemma containsSub_iff (needle : List Char) :
    ∀ (hay : List Char), containsSub needle hay = true ↔ needle <:+: hay := by
  intro hay
  induction hay with
  | nil =>
      simp [containsSub, List.isEmpty_iff, List.infix_nil]
  | cons c rest ih =>
      simp [containsSub, ih, List.infix_cons_iff]

/-- Claim C7: within one call past the fast path, the chunks handed to the
relativization collaborator are exactly the absolute-path chunks that occur
strictly after some chunk ending in a colon — chunks before the first
colon-terminated chunk are never passed (hence never rewritten), the state
persists across lines, and it is never reset within the call. -/
theorem rewrite_collaborator_calls (base_dir : List Char)
    (rel : List Char → List Char) (content : List Char)
    (h : containsSub base_dir content = true) :
    rwCalls base_dir rel content = prereqCandidates (allChunks content) false :=
  rwCalls_eq base_dir rel content h

/-- Witness for C7 on the spec's own example `"a b: c /a/d"` with base
directory `"/a"`: only the prerequisite-side absolute chunk is passed. -/
theorem rewrite_collaborator_calls_witness :
    containsSub ['/', 'a'] ['a', ' ', 'b', ':', ' ', 'c', ' ', '/', 'a', '/', 'd']
        = true ∧
      rwCalls ['/', 'a'] (fun t => t)
          ['a', ' ', 'b', ':', ' ', 'c', ' ', '/', 'a', '/', 'd'] =
        prereqCandidates
          (allChunks ['a', ' ', 'b', ':', ' ', 'c', ' ', '/', 'a', '/', 'd'])
          false :=
  ⟨by decide, rewrite_collaborator_calls _ _ _ (by decide)⟩

/-- Claim C8: past the fast path, `rewrite_source_paths` returns rewritten
content exactly when at least one candidate chunk is structurally replaced
by a differing relativization; otherwise it signals "no rewrite occurred"
with `none` instead of returning an unchanged copy. -/
theorem rewrite_some_iff_replacement (base_dir : List Char)
    (rel : List Char → List Char) (content : List Char)
    (h : containsSub base_dir content = true) :
    (∃ out, rewrite_source_paths base_dir rel content = some out) ↔
      ∃ t ∈ prereqCandidates (allChunks content) false, rel t ≠ t := by
  rw [rewrite_source_paths_eq base_dir rel content h]
  by_cases hany :
      (prereqCandidates (allChunks content) false).any (fun t => rel t != t)
        = true
  · rw [if_pos hany]
    simp only [List.any_eq_true, bne_iff_ne, ne_eq] at hany
    simpa using hany
  · rw [if_neg hany]
    simp only [List.any_eq_true, bne_iff_ne, ne_eq] at hany
    simpa using hany

/-- Witness for C8: with one changed prerequisite chunk the rewriter
returns content. -/
theorem rewrite_some_iff_replacement_witness :
    containsSub ['/', 'a'] ['b', ':', ' ', '/', 'a', '/', 'd'] = true ∧
      ∃ out,
        rewrite_source_paths ['/', 'a']
            (fun t => if t = ['/', 'a', '/', 'd'] then ['d'] else t)
            ['b', ':', ' ', '/', 'a', '/', 'd'] = some out :=
  ⟨by decide,
    (rewrite_some_iff_replacement _ _ _ (by decide)).mpr
      ⟨['/', 'a', '/', 'd'], by decide, by decide⟩⟩

/-- Claim C9: when the non-empty base directory does not occur as a
substring of the content, `rewrite_source_paths` answers "no rewrite
occurred" immediately and the relativization collaborator is never
invoked. -/
theorem rewrite_fast_path (base_dir : List Char) (rel : List Char → List Char)
    (content : List Char) (_hb : base_dir ≠ [])
    (h : ¬ base_dir <:+: content) :
    rewrite_source_paths base_dir rel content = none ∧
      rwCalls base_dir rel content = [] := by
  have hcs : containsSub base_dir content = false := by
    rw [Bool.eq_false_iff]
    intro hc
    exact h ((containsSub_iff base_dir content).mp hc)
  constructor
  · unfold rewrite_source_paths
    rw [if_neg (by simp [hcs])]
  · unfold rwCalls
    rw [if_neg (by simp [hcs])]

/-- Witness for C9 at a concrete base directory and content. -/
theorem rewrite_fast_path_witness :
    (['/', 'b'] : List Char) ≠ [] ∧
      ¬ (['/', 'b'] : List Char) <:+: ['h', 'i'] ∧
      rewrite_source_paths ['/', 'b'] (fun t => t) ['h', 'i'] = none ∧
      rwCalls ['/', 'b'] (fun t => t) ['h', 'i'] = [] := by
  have h := rewrite_fast_path ['/', 'b'] (fun t => t) ['h', 'i']
    (by decide) (by decide)
  exact ⟨by decide, by decide, h.1, h.2⟩

/-- Claim C5, counterexample: leading indentation is not preserved
verbatim — a line beginning with a tab is emitted with a single leading
space instead (position 5 of input and output is the start of the second
line). -/
theorem rewrite_tab_indent_counterexample :
    rewrite_source_paths ['/', 'a']
        (fun t => if t = ['/', 'a', '/', 'b'] then ['b'] else t)
        ['t', ':', ' ', 'x', '\n', '\t', '/', 'a', '/', 'b', ' ', 'c', '\n'] =
      some ['t', ':', ' ', 'x', '\n', ' ', 'b', ' ', 'c', '\n'] ∧
      (['t', ':', ' ', 'x', '\n', '\t', '/', 'a', '/', 'b', ' ', 'c', '\n']
          : List Char)[5]? = some '\t' ∧
      (['t', ':', ' ', 'x', '\n', ' ', 'b', ' ', 'c', '\n']
          : List Char)[5]? = some ' ' := by decide

/-- Claim C5, amended: whenever `rewrite_source_paths` returns rewritten
content, the output is the spec-side per-line reconstruction: for each
line, the space/tab-delimited chunks — with prerequisite-side absolute
chunks replaced by their differing relativized form — joined by single
spaces and preceded by exactly one space when the line originally began
with a space or tab (so inter-token runs and leading whitespace are both
normalized to a single space; everything else, including each line's
newline, which travels inside the line's final chunk, is reproduced
verbatim). -/
theorem rewrite_output_refines_spec (base_dir : List Char)
    (rel : List Char → List Char) (content out : List Char)
    (h : rewrite_source_paths base_dir rel content = some out) :
    out = rewriteSpecText rel content := by
  by_cases hc : containsSub base_dir content = true
  · rw [rewrite_source_paths_eq base_dir rel content hc] at h
    by_cases hany :
        (prereqCandidates (allChunks content) false).any (fun t => rel t != t)
          = true
    · rw [if_pos hany] at h
      exact (Option.some_injective _ h).symm
    · rw [if_neg hany] at h
      cases h
  · unfold rewrite_source_paths at h
    rw [if_neg hc] at h
    cases h

/-- Witness for C5's amended theorem at a concrete rewrite. -/
theorem rewrite_output_refines_spec_witness :
    rewrite_source_paths ['/', 'a']
        (fun t => if t = ['/', 'a', '/', 'b'] then ['b'] else t)
        ['t', ':', ' ', '/', 'a', '/', 'b', ' ', 'c', '\n'] =
      some ['t', ':', ' ', 'b', ' ', 'c', '\n'] ∧
      ['t', ':', ' ', 'b', ' ', 'c', '\n'] =
        rewriteSpecText (fun t => if t = ['/', 'a', '/', 'b'] then ['b'] else t)
          ['t', ':', ' ', '/', 'a', '/', 'b', ' ', 'c', '\n'] :=
  ⟨by decide,
    rewrite_output_refines_spec ['/', 'a']
      (fun t => if t = ['/', 'a', '/', 'b'] then ['b'] else t)
      ['t', ':', ' ', '/', 'a', '/', 'b', ' ', 'c', '\n']
      ['t', ':', ' ', 'b', ' ', 'c', '\n'] (by decide)⟩

lemma tokLoop_succ (n : Nat) (rest token : List Char)
    (res : List (List Char)) :
    tokLoop (n + 1) rest token res =
      match tokStep rest token res with
      | .done r => some r
      | .next rest1 token1 result1 => tokLoop n rest1 token1 result1 := rfl

lemma tokLoop_mono :
    ∀ (n : Nat) (rest token : List Char) (res x : List (List Char)),
      tokLoop n rest token res = some x →
        ∀ (m : Nat), n ≤ m → tokLoop m rest token res = some x := by
  intro n
  induction n with
  | zero => intro rest token res x h; cases h
  | succ n ih =>
      intro rest token res x h m hm
      obtain ⟨m', rfl⟩ : ∃ m', m = m' + 1 := ⟨m - 1, by omega⟩
      rw [tokLoop_succ] at h ⊢
      cases hs : tokStep rest token res with
      | done r => rw [hs] at h; simpa using h
      | next r1 t1 a1 =>
          rw [hs] at h
          exact ih r1 t1 a1 x h m' (by omega)

lemma tokLoop_next (n : Nat) (rest token r1 t1 : List Char)
    (res a1 : List (List Char)) (h : tokStep rest token res = .next r1 t1 a1) :
    tokLoop (n + 1) rest token res = tokLoop n r1 t1 a1 := by
  rw [tokLoop_succ, h]

lemma tokLoop_done (n : Nat) (rest token : List Char)
    (res r : List (List Char)) (h : tokStep rest token res = .done r) :
    tokLoop (n + 1) rest token res = some r := by
  rw [tokLoop_succ, h]

lemma tokStep_escpair (x : Char)
    (hx : (x == '\\' || x == '#' || x == ':' || x == ' ' || x == '\t') = true)
    (r token : List Char) (res : List (List Char)) :
    tokStep ('\\' :: x :: r) token res = .next r (token ++ [x]) res := by
  have h : (((x = '\\' ∨ x = '#') ∨ x = ':') ∨ x = ' ') ∨ x = '\t' := by
    simpa using hx
  rcases h with (((h | h) | h) | h) | h <;> subst h <;> rfl

lemma tokStep_dollar2 (r token : List Char) (res : List (List Char)) :
    tokStep ('$' :: '$' :: r) token res = .next r (token ++ ['$']) res := rfl

lemma tokStep_default (c : Char) (r token : List Char) (res : List (List Char))
    (h1 : isspace c = false) (h2 : (c == ':') = false)
    (h3 : (c == '\\') = false) (h4 : (c == '$') = false)
    (h5 : (c == '\"') = false) :
    tokStep (c :: r) token res = .next r (token ++ [c]) res := by
  unfold tokStep
  simp [h1, h2, h3, h4, h5]

/-- Processing the escaped form of a chunk of good characters appends the
chunk to the current token, consuming exactly one loop iteration per
original character. -/
lemma tokLoop_escaped_chunk :
    ∀ (f : List Char), f.all goodChar = true →
      ∀ (fuel : Nat) (rest token : List Char) (res : List (List Char)),
        tokLoop (f.length + fuel) (f.flatMap escapeSpecChar ++ rest) token res
          = tokLoop fuel rest (token ++ f) res := by
  intro f
  induction f with
  | nil => intro _ fuel rest token res; simp
  | cons c f ih =>
      intro hall fuel rest token res
      rw [List.all_cons, Bool.and_eq_true] at hall
      obtain ⟨hc, hf⟩ := hall
      have hlen : (c :: f).length + fuel = (f.length + fuel) + 1 := by
        simp [List.length_cons]; omega
      rw [hlen]
      by_cases hesc :
          (c == '\\' || c == '#' || c == ':' || c == ' ' || c == '\t') = true
      · have hflat : (c :: f).flatMap escapeSpecChar ++ rest
            = '\\' :: c :: (f.flatMap escapeSpecChar ++ rest) := by
          simp [List.flatMap_cons, escapeSpecChar, hesc]
        rw [hflat,
          tokLoop_next _ _ _ _ _ _ _ (tokStep_escpair c hesc _ _ _), ih hf]
        simp
      · by_cases hd : (c == '$') = true
        · have hc' : c = '$' := by simpa using hd
          subst hc'
          have hflat : ('$' :: f).flatMap escapeSpecChar ++ rest
              = '$' :: '$' :: (f.flatMap escapeSpecChar ++ rest) := by
            simp [List.flatMap_cons, escapeSpecChar]
          rw [hflat, tokLoop_next _ _ _ _ _ _ _ (tokStep_dollar2 _ _ _), ih hf]
          simp
        · have hflat : (c :: f).flatMap escapeSpecChar ++ rest
              = c :: (f.flatMap escapeSpecChar ++ rest) := by
            simp [List.flatMap_cons, escapeSpecChar, hesc, hd]
          have hor :
              (c == '\\' || c == '#' || c == ':' || c == ' ' || c == '\t')
                = false := Bool.eq_false_iff.mpr hesc
          have hd' : (c == '$') = false := Bool.eq_false_iff.mpr hd
          simp only [Bool.or_eq_false_iff] at hor
          obtain ⟨⟨⟨⟨hb1, hb2⟩, hb3⟩, hb4⟩, hb5⟩ := hor
          simp only [goodChar, Bool.and_eq_true, Bool.not_eq_true'] at hc
          obtain ⟨⟨⟨⟨hg1, hg2⟩, hg3⟩, hg4⟩, hg5⟩ := hc
          have hsp : isspace c = false := by
            simp [isspace, hb4, hb5, hg2, hg3, hg4, hg5]
          rw [hflat,
            tokLoop_next _ _ _ _ _ _ _
              (tokStep_default c _ _ _ hsp hb3 hb1 hd' hg1), ih hf]
          simp

/-- Flushing a non-blank token at a final colon: the colon is glued onto
the token ("target marker") and the loop terminates. -/
lemma tokLoop_final (f : List Char) (h2 : is_blank f = false) :
    tokLoop 2 [':'] f [] = some [f ++ [':']] := by
  have hstep : tokStep [':'] f [] = .next [] [] [f ++ [':']] := by
    simp [tokStep, h2, isspace_colon]
  rw [tokLoop_next _ _ _ _ _ _ _ hstep]
  rfl

lemma length_le_flatMap_escape (f : List Char) :
    f.length ≤ (f.flatMap escapeSpecChar).length := by
  induction f with
  | nil => simp
  | cons c f ih =>
      have h1 : 1 ≤ (escapeSpecChar c).length := by
        rw [escapeSpecChar_eq]
        simp
      simp only [List.flatMap_cons, List.length_append, List.length_cons]
      omega

/-- Claim C4, counterexample: the filename `"a\nb"` refutes the round-trip
claim — `escape_filename` does not escape the newline, so tokenizing the
escaped form followed by a colon yields two tokens, not one. -/
theorem roundtrip_fails_on_newline :
    tokenize (escape_filename ['a', '\n', 'b'] ++ [':']) =
        some [['a'], ['b', ':']] ∧
      ([['a'], ['b', ':']] : List (List Char)).length ≠ 1 := by decide

/-- Claim C4, amended: for every filename `f` that is not entirely
whitespace and contains no double quote, newline, vertical tab, form feed
or carriage return, `tokenize (escape_filename f ++ ":")` yields exactly
one token, namely `f` with the trailing target-terminator colon glued onto
it. -/
theorem roundtrip_escape_tokenize_amended (f : List Char)
    (h1 : f.all goodChar = true) (h2 : is_blank f = false) :
    tokenize (escape_filename f ++ [':']) = some [f ++ [':']] := by
  have hesc : escape_filename f = f.flatMap escapeSpecChar := escapeLoop_eq f []
  have hkey : tokLoop (f.length + 2) (f.flatMap escapeSpecChar ++ [':']) [] []
      = some [f ++ [':']] := by
    rw [tokLoop_escaped_chunk f h1 2 [':'] [] []]
    simpa using tokLoop_final f h2
  unfold tokenize
  rw [hesc]
  have hlen : (f.flatMap escapeSpecChar ++ [':']).length + 1
      = (f.flatMap escapeSpecChar).length + 2 := by
    simp
  rw [hlen]
  exact tokLoop_mono _ _ _ _ _ hkey _
    (by have := length_le_flatMap_escape f; omega)

/-- Witness for C4's amended round trip at `f = "a b"`. -/
theorem roundtrip_escape_tokenize_amended_witness :
    ((['a', ' ', 'b'].all goodChar = true) ∧ is_blank ['a', ' ', 'b'] = false) ∧
      tokenize (escape_filename ['a', ' ', 'b'] ++ [':']) =
        some [['a', ' ', 'b', ':']] :=
  ⟨⟨by decide, by decide⟩,
    roundtrip_escape_tokenize_amended ['a', ' ', 'b'] (by decide) (by decide)⟩


lemma all_of_sublist {p : Char → Bool} {l l' : List Char} (hs : List.Sublist l' l)
    (h : l.all p = true) : l'.all p = true := by
  rw [List.all_eq_true] at h ⊢
  exact fun x hx => h x (hs.subset hx)

lemma noWS_append_char (token : List Char) (d : Char) (hws : noWS token = true)
    (hd : isspace d = false) : noWS (token ++ [d]) = true := by
  unfold noWS at hws ⊢
  rw [List.all_append]
  simp [hws, hd]

lemma colonOK_append :
    ∀ (t : List Char) (d : Char), colonOK t = true →
      (t.getLast? = some ':' → d = '/') → colonOK (t ++ [d]) = true
  | [], d, _, _ => by simp [colonOK]
  | [a], d, h, hlast => by
      by_cases ha : a = ':'
      · subst ha
        have hd : d = '/' := hlast (by simp)
        subst hd
        decide
      · show colonOK [a, d] = true
        rw [show colonOK [a, d] = ((!(a == ':') || d == '/') && colonOK [d])
          from rfl]
        simp [ha, show colonOK [d] = true from rfl]
  | a :: b :: t, d, h, hlast => by
      rw [show colonOK (a :: b :: t) = ((!(a == ':') || b == '/') && colonOK (b :: t))
        from rfl, Bool.and_eq_true] at h
      have hih := colonOK_append (b :: t) d h.2 (fun hl => hlast (by
        rw [List.getLast?_cons_cons]; exact hl))
      show colonOK (a :: b :: (t ++ [d])) = true
      rw [show colonOK (a :: b :: (t ++ [d]))
          = ((!(a == ':') || b == '/') && colonOK (b :: (t ++ [d]))) from rfl,
        Bool.and_eq_true]
      exact ⟨h.1, by simpa using hih⟩

lemma tokStep_cons_next (c : Char) (rest token : List Char)
    (res : List (List Char)) :
    ∃ r1 t1 a1, tokStep (c :: rest) token res = .next r1 t1 a1 := by
  simp only [tokStep]
  repeat' split
  all_goals exact ⟨_, _, _, rfl⟩

lemma resOK_append (res : List (List Char)) (t0 : List Char)
    (hres : ∀ t ∈ res, noWS t = true ∧ colonOK t = true)
    (h1 : noWS t0 = true) (h2 : colonOK t0 = true) :
    ∀ t ∈ res ++ [t0], noWS t = true ∧ colonOK t = true := by
  intro t ht
  rcases List.mem_append.mp ht with h | h
  · exact hres t h
  · rw [List.mem_singleton] at h
    subst h
    exact ⟨h1, h2⟩

lemma tokStep_inv_next (c : Char) (r token r1 t1 : List Char)
    (res a1 : List (List Char))
    (hcl : clean (c :: r) = true)
    (hws : noWS token = true) (hok : colonOK token = true)
    (hlast : token.getLast? = some ':' → (c :: r).head? = some '/')
    (hres : ∀ t ∈ res, noWS t = true ∧ colonOK t = true)
    (hstep : tokStep (c :: r) token res = .next r1 t1 a1) :
    clean r1 = true ∧ noWS t1 = true ∧ colonOK t1 = true ∧
      (t1.getLast? = some ':' → r1.head? = some '/') ∧
      (∀ t ∈ a1, noWS t = true ∧ colonOK t = true) := by
  have hcl' := hcl
  simp only [clean, List.all_cons, Bool.and_eq_true, Bool.not_eq_true'] at hcl'
  obtain ⟨⟨hcb, hcq⟩, hctail⟩ := hcl'
  have hclr : clean r = true := by
    simp only [clean]
    rw [List.all_eq_true]
    intro x hx
    rw [List.all_eq_true] at hctail
    exact hctail x hx
  simp only [tokStep] at hstep
  split at hstep
  · -- drive-letter branch
    rename_i hcond
    cases hstep
    simp only [Bool.and_eq_true] at hcond
    obtain ⟨⟨⟨⟨hc1, hc2⟩, hc3⟩, hc4⟩, hc5⟩ := hcond
    have hceq : c = ':' := by simpa using hc1
    subst hceq
    rcases r with _ | ⟨d, r'⟩
    · simp at hc2
    · have hdcl : (d == '\\') = false := by
        rw [List.all_cons, Bool.and_eq_true] at hctail
        have h0 := hctail.1
        rw [Bool.and_eq_true, Bool.not_eq_true', Bool.not_eq_true'] at h0
        exact h0.1
      have hdeq : d = '/' := by
        simp only [List.head?_cons, Option.some_beq_some] at hc5
        simp only [Bool.or_eq_true, beq_iff_eq] at hc5
        rcases hc5 with h | h
        · exact h
        · exact absurd h (by simpa using hdcl)
      subst hdeq
      refine ⟨hclr, noWS_append_char token ':' hws (by decide), ?_, ?_, hres⟩
      · refine colonOK_append token ':' hok (fun hl => ?_)
        have h' := hlast hl
        simp at h'
      · intro _
        simp
  · -- separator / escape / dollar / quote / default
    split at hstep
    · -- separator
      rename_i hsep
      split at hstep
      · -- blank token: state reset
        cases hstep
        refine ⟨all_of_sublist (List.dropWhile_sublist isspace) hcl, by decide,
          by decide, by simp, hres⟩
      · -- non-blank token: flush, with possible colon glue
        rename_i hbl
        have hnl : ¬ token.getLast? = some ':' := by
          intro hl
          have h' := hlast hl
          simp only [List.head?_cons, Option.some.injEq] at h'
          subst h'
          exact absurd hsep (by decide)
        split at hstep
        · -- glue branch
          rename_i rest2 heq
          cases hstep
          have hcr1 : clean (':' :: rest2) = true := by
            rw [← heq]
            exact all_of_sublist (List.dropWhile_sublist isspace) hcl
          have hcr2 : clean rest2 = true := by
            simp only [clean, List.all_cons, Bool.and_eq_true] at hcr1
            simp only [clean]
            exact hcr1.2
          refine ⟨all_of_sublist (List.dropWhile_sublist isspace) hcr2, by decide,
            by decide, by simp,
            resOK_append res _ hres
              (noWS_append_char token ':' hws (by decide))
              (colonOK_append token ':' hok (fun hl => absurd hl hnl))⟩
        · -- plain flush
          cases hstep
          exact ⟨all_of_sublist (List.dropWhile_sublist isspace) hcl, by decide,
            by decide, by simp, resOK_append res _ hres hws hok⟩
    · -- escape branch: impossible, input is clean
      split at hstep
      · rename_i hbsl
        rw [hcb] at hbsl
        cases hbsl
      · -- dollar / quote / default
        split at hstep
        · -- dollar
          rename_i hdol
          have hcedol : c = '$' := by simpa using hdol
          have hnl : ¬ token.getLast? = some ':' := by
            intro hl
            have h' := hlast hl
            simp only [List.head?_cons, Option.some.injEq] at h'
            rw [hcedol] at h'
            cases h'
          split at hstep
          · -- dollar pair
            rename_i rest2 _hdr
            cases hstep
            have hcr2 : clean r1 = true := by
              simp only [clean, List.all_cons, Bool.and_eq_true] at hclr
              simp only [clean]
              exact hclr.2
            refine ⟨hcr2, noWS_append_char token '$' hws (by decide), ?_, ?_, hres⟩
            · exact colonOK_append token '$' hok (fun hl => absurd hl hnl)
            · intro hl
              rw [List.getLast?_concat] at hl
              simp at hl
          · -- lone dollar
            cases hstep
            refine ⟨hclr, noWS_append_char token '$' hws (by decide), ?_, ?_, hres⟩
            · exact colonOK_append token '$' hok (fun hl => absurd hl hnl)
            · intro hl
              rw [List.getLast?_concat] at hl
              simp at hl
        · -- quote: impossible, input is clean
          split at hstep
          · rename_i hquo
            rw [hcq] at hquo
            cases hquo
          · -- default: ordinary character appended
            rename_i hsep hbsl hdol hquo
            cases hstep
            have hsep' : isspace c = false ∧ (c == ':') = false := by
              constructor
              · by_cases h : isspace c = true
                · exact absurd (by simp [h]) hsep
                · simpa using h
              · by_cases h : (c == ':') = true
                · exact absurd (by simp [h]) hsep
                · simpa using h
            refine ⟨hclr, noWS_append_char token c hws hsep'.1, ?_, ?_, hres⟩
            · refine colonOK_append token c hok (fun hl => ?_)
              have h' := hlast hl
              simpa using h'
            · intro hl
              rw [List.getLast?_concat] at hl
              simp only [Option.some.injEq] at hl
              rw [hl] at hsep'
              simp at hsep'



lemma tokLoop_inv :
    ∀ (fuel : Nat) (rest token : List Char) (res x : List (List Char)),
      clean rest = true → noWS token = true → colonOK token = true →
      (token.getLast? = some ':' → rest.head? = some '/') →
      (∀ t ∈ res, noWS t = true ∧ colonOK t = true) →
      tokLoop fuel rest token res = some x →
      ∀ t ∈ x, noWS t = true ∧ colonOK t = true := by
  intro fuel
  induction fuel with
  | zero => intro rest token res x _ _ _ _ _ h; cases h
  | succ n ih =>
      intro rest token res x hcl hws hok hlast hres h
      rcases rest with _ | ⟨c, r⟩
      · rw [tokLoop_done n [] token res _ rfl] at h
        injection h with h
        subst h
        split
        · exact hres
        · exact resOK_append res token hres hws hok
      · obtain ⟨r1, t1, a1, hs⟩ := tokStep_cons_next c r token res
        rw [tokLoop_next n _ _ _ _ _ _ hs] at h
        obtain ⟨k1, k2, k3, k4, k5⟩ :=
          tokStep_inv_next c r token r1 t1 res a1 hcl hws hok hlast hres hs
        exact ih r1 t1 a1 x k1 k2 k3 k4 k5 h

/-- Claim C6, amended: for input free of backslashes and double quotes
(so nothing in it is escaped or quoted), no token produced by `tokenize`
contains a whitespace character, and every colon inside a token is either
the token's final character (a separator colon glued onto the flushed
token as its target marker) or is immediately followed by a forward slash
(a Windows drive-letter colon). -/
theorem token_invariant_amended (s : List Char) (res : List (List Char))
    (hcl : clean s = true) (h : tokenize s = some res) :
    ∀ t ∈ res, noWS t = true ∧ colonOK t = true :=
  tokLoop_inv (s.length + 1) s [] [] res hcl rfl rfl (by simp) (by simp) h

/-- Claim C6, counterexample: in `"cat : dep"` the colon is unescaped,
unquoted and used as the separator between `cat` and `dep`, yet it appears
inside the produced token `"cat:"`. -/
theorem separator_colon_lands_in_token :
    tokenize ['c', 'a', 't', ' ', ':', ' ', 'd', 'e', 'p'] =
        some [['c', 'a', 't', ':'], ['d', 'e', 'p']] ∧
      ':' ∈ ['c', 'a', 't', ':'] := by decide

/-- Witness for C6's amended invariant on `"c:/m x: y"`. -/
theorem token_invariant_amended_witness :
    (clean ['c', ':', '/', 'm', ' ', 'x', ':', ' ', 'y'] = true ∧
        tokenize ['c', ':', '/', 'm', ' ', 'x', ':', ' ', 'y'] =
          some [['c', ':', '/', 'm'], ['x', ':'], ['y']]) ∧
      noWS ['c', ':', '/', 'm'] = true ∧ colonOK ['c', ':', '/', 'm'] = true :=
  ⟨⟨by decide, by decide⟩,
    token_invariant_amended ['c', ':', '/', 'm', ' ', 'x', ':', ' ', 'y']
      [['c', ':', '/', 'm'], ['x', ':'], ['y']] (by decide) (by decide)
      ['c', ':', '/', 'm'] (by decide)⟩


end Depfile
